import Mathlib

/-!
Shallow embedding of `typepub` (src/src/backend.rs and src/src/epub.rs).

Rust `String`s are modelled as `List Char`; byte offsets are computed with
`Char.utf8Size`, so `Len`'s dual byte/char bookkeeping is preserved exactly.
Operations that can panic in Rust (slicing at a non-boundary byte offset,
`unwrap`, arithmetic underflow under debug assertions) return `Option`,
with `none` standing for the panic.
-/

/-- Unicode `White_Space`, the property behind Rust's `char::is_whitespace`
(backend.rs line 130 uses `c.is_whitespace()`). -/
def rustIsWhitespace (c : Char) : Bool :=
  (0x09 ≤ c.toNat && c.toNat ≤ 0x0D) || c.toNat == 0x20 || c.toNat == 0x85 ||
  c.toNat == 0xA0 || c.toNat == 0x1680 ||
  (0x2000 ≤ c.toNat && c.toNat ≤ 0x200A) ||
  c.toNat == 0x2028 || c.toNat == 0x2029 || c.toNat == 0x202F ||
  c.toNat == 0x205F || c.toNat == 0x3000

/-- Total number of UTF-8 bytes of a character list (Rust `str::len`). -/
def utf8Len (l : List Char) : Nat :=
  (l.map Char.utf8Size).sum

/-- Splitting a character list at a byte offset, as Rust string slicing does:
`some (before, after)` when the offset lands on a character boundary within
the string, `none` (a Rust panic) otherwise. -/
def byteSplit : List Char → Nat → Option (List Char × List Char)
  | s, 0 => some ([], s)
  | [], _ + 1 => none
  | c :: s, n + 1 =>
    if c.utf8Size ≤ n + 1 then
      match byteSplit s (n + 1 - c.utf8Size) with
      | some (a, r) => some (c :: a, r)
      | none => none
    else none

/-- `Len` from backend.rs lines 161-183: a dual byte/char offset. -/
structure Len where
  bytes : Nat
  chars : Nat
deriving DecidableEq

instance : Add Len :=
  ⟨fun a b => ⟨a.bytes + b.bytes, a.chars + b.chars⟩⟩

theorem Len.add_def (a b : Len) : a + b = ⟨a.bytes + b.bytes, a.chars + b.chars⟩ :=
  rfl

/-- `ALTERNATIVES` from backend.rs lines 14-19: typed stand-in character
(ASCII apostrophe 39, double quote 34, space 32) paired with the book
variants it may stand for (curly quotes U+2018/U+2019/U+201C/U+201D and the
no-break space U+00A0). -/
def ALTERNATIVES : List (Char × List Char) :=
  [(Char.ofNat 39, [Char.ofNat 0x2018, Char.ofNat 0x2019]),
   (Char.ofNat 34, [Char.ofNat 0x201C, Char.ofNat 0x201D]),
   (Char.ofNat 32, [Char.ofNat 0xA0])]

/-- backend.rs lines 221-229. -/
def chars_are_equal_including_unicode_alternatives (expected got : Char) : Bool :=
  if expected == got then true
  else
    match ALTERNATIVES.find? (fun x => x.1 == got) with
    | some alts => alts.2.contains expected
    | none => false

/-- `Backend` from backend.rs lines 21-29 (the `styling` field carries no
keystroke state and is omitted from the session model). -/
structure Backend where
  text : List Char
  typed : List Char
  cursor : Len
  cursor_prev : Len
  errors : List Len
  deleted_errors : List Len
deriving DecidableEq

/-- The session fields of a freshly constructed `Backend`
(backend.rs lines 67-75), over an arbitrary canonical text. -/
def Backend.init (text : List Char) : Backend :=
  { text := text, typed := [], cursor := ⟨0, 0⟩, cursor_prev := ⟨0, 0⟩,
    errors := [], deleted_errors := [] }

/-- `Backend::push` (Advance), backend.rs lines 102-113. -/
def Backend.push (b : Backend) (c : Char) : Option Backend :=
  match byteSplit b.text b.cursor.bytes with
  | none => none
  | some (_, []) => some b
  | some (_, goal :: _) =>
    some { b with
      typed := b.typed ++ [c]
      errors :=
        if chars_are_equal_including_unicode_alternatives goal c then b.errors
        else b.errors ++ [b.cursor]
      cursor_prev := b.cursor
      cursor := ⟨b.cursor.bytes + goal.utf8Size, b.cursor.chars + 1⟩ }

/-- The `errors` drain of backend.rs lines 146-153: split at the first entry
whose char position is at or beyond the new cursor. -/
def errorsDrain (errors : List Len) (c : Nat) : List Len × List Len :=
  match errors.findIdx? (fun i => decide (c ≤ i.chars)) with
  | none => (errors, [])
  | some k => (errors.take k, errors.drop k)

/-- `Backend::delete_backwards_impl`, backend.rs lines 140-154. The byte
subtractions are `usize` arithmetic whose underflow is a (debug) panic,
modelled as `none`; `String::truncate` at a non-boundary offset also panics. -/
def Backend.delete_backwards_impl (b : Backend) (len typed : Len) : Option Backend :=
  if typed.bytes ≤ utf8Len b.typed then
    match byteSplit b.typed (utf8Len b.typed - typed.bytes) with
    | none => none
    | some (kept, _) =>
      if len.bytes ≤ b.cursor.bytes ∧ len.chars ≤ b.cursor.chars then
        some { b with
          typed := kept
          cursor_prev := b.cursor
          cursor := ⟨b.cursor.bytes - len.bytes, b.cursor.chars - len.chars⟩
          errors := (errorsDrain b.errors (b.cursor.chars - len.chars)).1
          deleted_errors :=
            b.deleted_errors ++ (errorsDrain b.errors (b.cursor.chars - len.chars)).2 }
      else none
  else none

/-- `Backend::pop` (Backspace), backend.rs lines 115-121; the `unwrap` on the
preceding text character is `none` when it fails. -/
def Backend.pop (b : Backend) : Option Backend :=
  match b.typed.getLast? with
  | none => some b
  | some tc =>
    match byteSplit b.text b.cursor.bytes with
    | none => none
    | some (pre, _) =>
      match pre.getLast? with
      | none => none
      | some xc => b.delete_backwards_impl ⟨xc.utf8Size, 1⟩ ⟨tc.utf8Size, 1⟩

/-- The stateful `take_while` closure of backend.rs lines 124-133, applied to
the reversed typed buffer: keep trailing whitespace, then keep non-whitespace,
stop at the first whitespace after a non-whitespace was seen. -/
def takeWhileWordRev : List Char → Bool → List Char
  | [], _ => []
  | c :: rest, found =>
    if (found || !rustIsWhitespace c) && rustIsWhitespace c then []
    else c :: takeWhileWordRev rest (found || !rustIsWhitespace c)

/-- `Backend::delete_word_backwards` (BackspaceWord), backend.rs lines 123-138:
zip the taken reversed typed characters with the reversed consumed text,
fold their byte/char lengths componentwise, and delete backwards. -/
def Backend.delete_word_backwards (b : Backend) : Option Backend :=
  match byteSplit b.text b.cursor.bytes with
  | none => none
  | some (pre, _) =>
    let pairs := (takeWhileWordRev b.typed.reverse false).zip pre.reverse
    let sums := pairs.foldl
      (fun acc p =>
        (acc.1 + (⟨p.1.utf8Size, 1⟩ : Len), acc.2 + (⟨p.2.utf8Size, 1⟩ : Len)))
      ((⟨0, 0⟩ : Len), (⟨0, 0⟩ : Len))
    b.delete_backwards_impl sums.2 sums.1

/-- `Backend::clear_per_update_data` (EndCycle), backend.rs lines 98-100. -/
def Backend.clear_per_update_data (b : Backend) : Backend :=
  { b with deleted_errors := [] }

/-- States reachable from a freshly constructed `Backend` by keystroke
operations, each step required to complete without a panic. -/
inductive Backend.Reachable : Backend → Prop
  | init (text : List Char) : Backend.Reachable (Backend.init text)
  | push {b b' : Backend} (c : Char) :
      Backend.Reachable b → Backend.push b c = some b' → Backend.Reachable b'
  | pop {b b' : Backend} :
      Backend.Reachable b → Backend.pop b = some b' → Backend.Reachable b'
  | backspace_word {b b' : Backend} :
      Backend.Reachable b → Backend.delete_word_backwards b = some b' →
      Backend.Reachable b'
  | end_cycle {b : Backend} :
      Backend.Reachable b → Backend.Reachable b.clear_per_update_data

/-- Advance applied to a whole keystroke sequence. -/
def Backend.pushSeq (b : Backend) : List Char → Option Backend
  | [] => some b
  | c :: cs =>
    match b.push c with
    | some b' => Backend.pushSeq b' cs
    | none => none

@[simp]
theorem utf8Len_nil : utf8Len [] = 0 :=
  rfl

@[simp]
theorem utf8Len_cons (c : Char) (l : List Char) :
    utf8Len (c :: l) = c.utf8Size + utf8Len l := by
  simp [utf8Len]

@[simp]
theorem utf8Len_append (a b : List Char) :
    utf8Len (a ++ b) = utf8Len a + utf8Len b := by
  simp [utf8Len]

@[simp]
theorem utf8Len_reverse (l : List Char) : utf8Len l.reverse = utf8Len l := by
  simp [utf8Len, List.sum_reverse]

theorem utf8Len_eq_zero {l : List Char} (h : utf8Len l = 0) : l = [] := by
  cases l with
  | nil => rfl
  | cons c l => have := c.utf8Size_pos; simp [utf8Len] at h; omega

theorem byteSplit_cons_pos (c : Char) (s : List Char) (n : Nat) (h : 0 < n) :
    byteSplit (c :: s) n =
      if c.utf8Size ≤ n then
        match byteSplit s (n - c.utf8Size) with
        | some (a, r) => some (c :: a, r)
        | none => none
      else none := by
  obtain ⟨m, rfl⟩ : ∃ m, n = m + 1 := ⟨n - 1, by omega⟩
  rfl

theorem byteSplit_eq_some (s : List Char) :
    ∀ n a r, byteSplit s n = some (a, r) → s = a ++ r ∧ utf8Len a = n := by
  induction s with
  | nil =>
    intro n a r h
    cases n with
    | zero => simp [byteSplit] at h; obtain ⟨rfl, rfl⟩ := h; simp
    | succ n => simp [byteSplit] at h
  | cons c s ih =>
    intro n a r h
    cases n with
    | zero =>
      simp [byteSplit] at h
      obtain ⟨rfl, rfl⟩ := h
      simp
    | succ n =>
      rw [byteSplit_cons_pos c s (n + 1) (Nat.succ_pos n)] at h
      by_cases hle : c.utf8Size ≤ n + 1
      · rw [if_pos hle] at h
        cases hrec : byteSplit s (n + 1 - c.utf8Size) with
        | none => rw [hrec] at h; exact absurd h (by simp)
        | some p =>
          obtain ⟨a', r'⟩ := p
          rw [hrec] at h
          simp only [Option.some.injEq, Prod.mk.injEq] at h
          obtain ⟨ha, hr⟩ := h
          obtain ⟨hs, hlen⟩ := ih _ _ _ hrec
          subst ha hr
          constructor
          · simp [hs]
          · simp [hlen]; omega
      · rw [if_neg hle] at h; exact absurd h (by simp)

theorem byteSplit_append (a r : List Char) :
    byteSplit (a ++ r) (utf8Len a) = some (a, r) := by
  induction a with
  | nil => simp [byteSplit]
  | cons c a ih =>
    have hc : 0 < c.utf8Size := c.utf8Size_pos
    rw [List.cons_append, utf8Len_cons,
      byteSplit_cons_pos c (a ++ r) (c.utf8Size + utf8Len a) (by omega),
      if_pos (by omega)]
    have h2 : c.utf8Size + utf8Len a - c.utf8Size = utf8Len a := by omega
    rw [h2, ih]

theorem byteSplit_some_iff {s a r : List Char} {n : Nat} :
    byteSplit s n = some (a, r) ↔ s = a ++ r ∧ utf8Len a = n := by
  constructor
  · exact byteSplit_eq_some s n a r
  · rintro ⟨rfl, rfl⟩
    exact byteSplit_append a r

theorem errorsDrain_eq (l : List Len) (c : Nat) :
    errorsDrain l c =
      (l.takeWhile (fun e => decide (e.chars < c)),
       l.dropWhile (fun e => decide (e.chars < c))) := by
  induction l with
  | nil => rfl
  | cons x l ih =>
    unfold errorsDrain
    rw [List.findIdx?_cons]
    by_cases hx : c ≤ x.chars
    · rw [if_pos (by simpa using hx)]
      simp [List.takeWhile_cons, List.dropWhile_cons, Nat.not_lt.mpr hx]
    · rw [if_neg (by simpa using hx), List.findIdx?_succ]
      have hlt : x.chars < c := Nat.not_le.mp hx
      unfold errorsDrain at ih
      cases hf : l.findIdx? (fun i => decide (c ≤ i.chars)) with
      | none =>
        rw [hf] at ih
        rw [Prod.mk.injEq] at ih
        simp [List.takeWhile_cons, List.dropWhile_cons, hlt, ← ih.1, ← ih.2]
      | some k =>
        rw [hf] at ih
        rw [Prod.mk.injEq] at ih
        simp [List.takeWhile_cons, List.dropWhile_cons, hlt, ← ih.1, ← ih.2]

theorem sorted_takeWhile_dropWhile_filter (l : List Len) (c : Nat)
    (h : l.Pairwise (fun x y => x.chars ≤ y.chars)) :
    l.takeWhile (fun e => decide (e.chars < c)) =
      l.filter (fun e => decide (e.chars < c)) ∧
    l.dropWhile (fun e => decide (e.chars < c)) =
      l.filter (fun e => decide (c ≤ e.chars)) := by
  induction l with
  | nil => simp
  | cons x l ih =>
    obtain ⟨hx, hl⟩ := List.pairwise_cons.mp h
    by_cases hc : x.chars < c
    · simp [List.takeWhile_cons, List.dropWhile_cons, List.filter_cons, hc,
        Nat.not_le.mpr hc, (ih hl).1, (ih hl).2]
    · have hge : c ≤ x.chars := Nat.not_lt.mp hc
      have hall : ∀ e ∈ l, ¬e.chars < c := fun e he => by
        have := hx e he; omega
      have h1 : l.filter (fun e => decide (e.chars < c)) = [] :=
        List.filter_eq_nil_iff.mpr (by simpa using hall)
      have h2 : l.filter (fun e => decide (c ≤ e.chars)) = l :=
        List.filter_eq_self.mpr (by
          intro e he
          simpa using Nat.not_lt.mp (hall e he))
      simp [List.takeWhile_cons, List.dropWhile_cons, List.filter_cons, hc, hge,
        h1, h2]

theorem takeWhile_append_all {α : Type} (p : α → Bool) (l1 l2 : List α)
    (h1 : ∀ x ∈ l1, p x) :
    (l1 ++ l2).takeWhile p = l1 ++ l2.takeWhile p ∧
    (l1 ++ l2).dropWhile p = l2.dropWhile p := by
  induction l1 with
  | nil => simp
  | cons x l1 ih =>
    have hx : p x := h1 x (by simp)
    have := ih (fun y hy => h1 y (by simp [hy]))
    simp [List.takeWhile_cons, List.dropWhile_cons, hx, this.1, this.2]

@[simp]
theorem Len.bytes_mk (x y : Nat) : (⟨x, y⟩ : Len).bytes = x :=
  rfl

@[simp]
theorem Len.chars_mk (x y : Nat) : (⟨x, y⟩ : Len).chars = y :=
  rfl

@[simp]
theorem Len.add_zero_zero (a : Len) : a + (⟨0, 0⟩ : Len) = a := by
  cases a
  simp [Len.add_def]

@[simp]
theorem Len.zero_zero_add (a : Len) : (⟨0, 0⟩ : Len) + a = a := by
  cases a
  simp [Len.add_def]

/-- The data-model invariant of session states: the cursor lands on a
character boundary of `text`, its byte and char components agree with the
consumed prefix, `typed` is character-synchronized with the cursor, and
`errors` holds sorted positions strictly before the cursor. -/
def Backend.Inv (b : Backend) : Prop :=
  ∃ pre suf, byteSplit b.text b.cursor.bytes = some (pre, suf) ∧
    pre.length = b.cursor.chars ∧
    b.typed.length = b.cursor.chars ∧
    (∀ e ∈ b.errors, e.chars < b.cursor.chars) ∧
    b.errors.Pairwise (fun x y => x.chars ≤ y.chars)

theorem Backend.push_at_end {b : Backend} {pre : List Char}
    (hs : byteSplit b.text b.cursor.bytes = some (pre, [])) (c : Char) :
    b.push c = some b := by
  unfold Backend.push
  rw [hs]

theorem Backend.push_mid {b : Backend} {pre rest : List Char} {goal : Char}
    (hs : byteSplit b.text b.cursor.bytes = some (pre, goal :: rest)) (c : Char) :
    b.push c = some { b with
      typed := b.typed ++ [c]
      errors :=
        if chars_are_equal_including_unicode_alternatives goal c then b.errors
        else b.errors ++ [b.cursor]
      cursor_prev := b.cursor
      cursor := ⟨b.cursor.bytes + goal.utf8Size, b.cursor.chars + 1⟩ } := by
  unfold Backend.push
  rw [hs]

theorem Backend.delete_backwards_impl_eq (b : Backend)
    (tkeep tdrop xkeep xdrop suf : List Char)
    (ht : b.typed = tkeep ++ tdrop)
    (hs : byteSplit b.text b.cursor.bytes = some (xkeep ++ xdrop, suf))
    (hchars : (xkeep ++ xdrop).length = b.cursor.chars)
    (hlen : xdrop.length = tdrop.length) :
    b.delete_backwards_impl ⟨utf8Len xdrop, xdrop.length⟩ ⟨utf8Len tdrop, tdrop.length⟩ =
      some { b with
        typed := tkeep
        cursor_prev := b.cursor
        cursor := ⟨b.cursor.bytes - utf8Len xdrop, b.cursor.chars - xdrop.length⟩
        errors := (errorsDrain b.errors (b.cursor.chars - xdrop.length)).1
        deleted_errors :=
          b.deleted_errors ++
            (errorsDrain b.errors (b.cursor.chars - xdrop.length)).2 } := by
  have hbt : utf8Len b.typed = utf8Len tkeep + utf8Len tdrop := by
    rw [ht]; simp
  have hbs : utf8Len (xkeep ++ xdrop) = b.cursor.bytes :=
    (byteSplit_eq_some _ _ _ _ hs).2
  have hxb : utf8Len xkeep + utf8Len xdrop = b.cursor.bytes := by
    simpa using hbs
  have hcc : xkeep.length + xdrop.length = b.cursor.chars := by
    simpa using hchars
  have h1 : utf8Len tdrop ≤ utf8Len b.typed := by omega
  have hsub : utf8Len b.typed - utf8Len tdrop = utf8Len tkeep := by omega
  have hsp : byteSplit b.typed (utf8Len tkeep) = some (tkeep, tdrop) := by
    rw [ht]; exact byteSplit_append tkeep tdrop
  unfold Backend.delete_backwards_impl
  simp only [Len.bytes_mk, Len.chars_mk]
  rw [if_pos h1, hsub, hsp]
  exact if_pos ⟨by omega, by omega⟩

theorem Backend.delete_backwards_impl_shape {b b' : Backend} {len typed : Len}
    (h : b.delete_backwards_impl len typed = some b') :
    b'.cursor = ⟨b.cursor.bytes - len.bytes, b.cursor.chars - len.chars⟩ ∧
    b'.errors = (errorsDrain b.errors (b.cursor.chars - len.chars)).1 ∧
    b'.deleted_errors =
      b.deleted_errors ++ (errorsDrain b.errors (b.cursor.chars - len.chars)).2 ∧
    b'.text = b.text ∧ b'.cursor_prev = b.cursor := by
  unfold Backend.delete_backwards_impl at h
  split at h
  · split at h
    · simp at h
    · split at h
      · injection h with h
        subst h
        simp
      · simp at h
  · simp at h

theorem Backend.pop_eq {b : Backend} {tkeep xkeep suf : List Char} {tc xc : Char}
    (ht : b.typed = tkeep ++ [tc])
    (hs : byteSplit b.text b.cursor.bytes = some (xkeep ++ [xc], suf))
    (hchars : (xkeep ++ [xc]).length = b.cursor.chars) :
    b.pop = some { b with
      typed := tkeep
      cursor_prev := b.cursor
      cursor := ⟨b.cursor.bytes - xc.utf8Size, b.cursor.chars - 1⟩
      errors := (errorsDrain b.errors (b.cursor.chars - 1)).1
      deleted_errors :=
        b.deleted_errors ++ (errorsDrain b.errors (b.cursor.chars - 1)).2 } := by
  have himpl := Backend.delete_backwards_impl_eq b tkeep [tc] xkeep [xc] suf ht hs hchars rfl
  unfold Backend.pop
  simp only [ht, List.getLast?_concat, hs]
  simpa using himpl

theorem Backend.pop_cases {b b' : Backend} (h : b.pop = some b') :
    (b.typed = [] ∧ b' = b) ∨ ∃ lt tp, b.delete_backwards_impl lt tp = some b' := by
  unfold Backend.pop at h
  cases hl : b.typed.getLast? with
  | none =>
    simp only [hl, Option.some.injEq] at h
    exact Or.inl ⟨List.getLast?_eq_none_iff.mp hl, h.symm⟩
  | some tc =>
    simp only [hl] at h
    right
    cases hsp : byteSplit b.text b.cursor.bytes with
    | none => simp only [hsp] at h; exact absurd h (by simp)
    | some p =>
      obtain ⟨pre, suf⟩ := p
      simp only [hsp] at h
      cases hgl : pre.getLast? with
      | none => simp only [hgl] at h; exact absurd h (by simp)
      | some xc =>
        simp only [hgl] at h
        exact ⟨_, _, h⟩

theorem foldl_len_pairs (pairs : List (Char × Char)) (a1 a2 : Len) :
    pairs.foldl
      (fun acc p => (acc.1 + (⟨p.1.utf8Size, 1⟩ : Len), acc.2 + (⟨p.2.utf8Size, 1⟩ : Len)))
      (a1, a2) =
      (a1 + ⟨utf8Len (pairs.map Prod.fst), pairs.length⟩,
       a2 + ⟨utf8Len (pairs.map Prod.snd), pairs.length⟩) := by
  induction pairs generalizing a1 a2 with
  | nil => simp
  | cons p ps ih =>
    simp only [List.foldl_cons]
    rw [ih]
    simp only [List.map_cons, utf8Len_cons, List.length_cons, Len.add_def,
      Len.bytes_mk, Len.chars_mk, Prod.mk.injEq, Len.mk.injEq]
    omega

theorem map_snd_zip_take {α β : Type} :
    ∀ (l : List α) (l' : List β), l.length ≤ l'.length →
      (l.zip l').map Prod.snd = l'.take l.length
  | [], l', _ => by simp
  | a :: l, [], h => by simp at h
  | a :: l, b :: l', h => by
    simp [List.zip_cons_cons, map_snd_zip_take l l' (by simpa using h)]

theorem takeWhileWordRev_exists_rest (l : List Char) (f : Bool) :
    ∃ rest, l = takeWhileWordRev l f ++ rest := by
  induction l generalizing f with
  | nil => exact ⟨[], rfl⟩
  | cons c l ih =>
    unfold takeWhileWordRev
    by_cases h : ((f || !rustIsWhitespace c) && rustIsWhitespace c) = true
    · rw [if_pos h]
      exact ⟨c :: l, rfl⟩
    · rw [if_neg h]
      obtain ⟨rest, hr⟩ := ih (f || !rustIsWhitespace c)
      exact ⟨rest, by rw [List.cons_append, ← hr]⟩

theorem takeWhileWordRev_true (l : List Char) :
    takeWhileWordRev l true = l.takeWhile (fun c => !rustIsWhitespace c) := by
  induction l with
  | nil => rfl
  | cons c l ih =>
    by_cases h : rustIsWhitespace c
    · simp [takeWhileWordRev, List.takeWhile_cons, h]
    · simp [takeWhileWordRev, List.takeWhile_cons, h, ih]

theorem takeWhileWordRev_false (l : List Char) :
    takeWhileWordRev l false =
      l.takeWhile rustIsWhitespace ++
        (l.dropWhile rustIsWhitespace).takeWhile (fun c => !rustIsWhitespace c) := by
  induction l with
  | nil => rfl
  | cons c l ih =>
    by_cases h : rustIsWhitespace c
    · simp [takeWhileWordRev, List.takeWhile_cons, List.dropWhile_cons, h, ih]
    · simp [takeWhileWordRev, List.takeWhile_cons, List.dropWhile_cons, h,
        takeWhileWordRev_true]

/-- The characters `delete_word_backwards` takes from the end of the typed
buffer (helper vocabulary for stating its effect). -/
def wordTaken (b : Backend) : List Char :=
  takeWhileWordRev b.typed.reverse false

theorem Backend.dwb_eq {b : Backend} {pre suf : List Char}
    (hs : byteSplit b.text b.cursor.bytes = some (pre, suf))
    (hle : (wordTaken b).length ≤ pre.length) :
    b.delete_word_backwards =
      b.delete_backwards_impl
        ⟨utf8Len (pre.reverse.take (wordTaken b).length), (wordTaken b).length⟩
        ⟨utf8Len (wordTaken b), (wordTaken b).length⟩ := by
  unfold Backend.delete_word_backwards
  have hlen : (wordTaken b).length ≤ pre.reverse.length := by simpa using hle
  simp only [hs]
  rw [show takeWhileWordRev b.typed.reverse false = wordTaken b from rfl]
  rw [foldl_len_pairs, List.map_fst_zip _ _ hlen, map_snd_zip_take _ _ hlen,
    List.length_zip]
  simp [Nat.min_eq_left hle]

theorem Backend.dwb_cases {b b' : Backend} (h : b.delete_word_backwards = some b') :
    ∃ lt tp, b.delete_backwards_impl lt tp = some b' := by
  unfold Backend.delete_word_backwards at h
  cases hsp : byteSplit b.text b.cursor.bytes with
  | none => simp only [hsp] at h; exact absurd h (by simp)
  | some p =>
    obtain ⟨pre, suf⟩ := p
    simp only [hsp] at h
    exact ⟨_, _, h⟩

@[simp]
theorem byteSplit_zero (s : List Char) : byteSplit s 0 = some ([], s) := by
  cases s <;> rfl

theorem Backend.inv_init (text : List Char) : (Backend.init text).Inv :=
  ⟨[], text, byteSplit_zero text, rfl, rfl, by simp [Backend.init], by simp [Backend.init]⟩

theorem Backend.inv_push {b b' : Backend} (hinv : b.Inv) {c : Char}
    (h : b.push c = some b') : b'.Inv := by
  obtain ⟨pre, suf, hs, hpre, htl, herr, hsort⟩ := hinv
  cases suf with
  | nil =>
    rw [Backend.push_at_end hs c] at h
    injection h with h
    subst h
    exact ⟨pre, [], hs, hpre, htl, herr, hsort⟩
  | cons goal rest =>
    rw [Backend.push_mid hs c] at h
    injection h with h
    subst h
    have htext : b.text = (pre ++ [goal]) ++ rest := by
      have := (byteSplit_eq_some _ _ _ _ hs).1
      simpa [List.append_assoc] using this
    have hb : utf8Len pre = b.cursor.bytes := (byteSplit_eq_some _ _ _ _ hs).2
    refine ⟨pre ++ [goal], rest, ?_, ?_, ?_, ?_, ?_⟩
    · show byteSplit b.text (b.cursor.bytes + goal.utf8Size) = some (pre ++ [goal], rest)
      have h2 : utf8Len (pre ++ [goal]) = b.cursor.bytes + goal.utf8Size := by
        simp [hb]
      rw [htext, ← h2]
      exact byteSplit_append _ _
    · simp [hpre]
    · simp [htl]
    · intro e he
      simp only at he
      by_cases hcmp : chars_are_equal_including_unicode_alternatives goal c
      · rw [if_pos hcmp] at he
        have := herr e he
        simp
        omega
      · rw [if_neg hcmp] at he
        rcases List.mem_append.mp he with h1 | h1
        · have := herr e h1
          simp
          omega
        · simp at h1
          subst h1
          simp
    · show List.Pairwise _ (if chars_are_equal_including_unicode_alternatives goal c
        then b.errors else b.errors ++ [b.cursor])
      by_cases hcmp : chars_are_equal_including_unicode_alternatives goal c
      · rw [if_pos hcmp]
        exact hsort
      · rw [if_neg hcmp]
        refine List.pairwise_append.mpr ⟨hsort, List.pairwise_singleton _ _, ?_⟩
        intro x hx y hy
        simp at hy
        subst hy
        exact Nat.le_of_lt (herr x hx)

theorem Backend.inv_delete {b : Backend} (hinv : b.Inv)
    {tkeep tdrop xkeep xdrop suf : List Char}
    (ht : b.typed = tkeep ++ tdrop)
    (hs : byteSplit b.text b.cursor.bytes = some (xkeep ++ xdrop, suf))
    (hlen : xdrop.length = tdrop.length) :
    Backend.Inv { b with
      typed := tkeep
      cursor_prev := b.cursor
      cursor := ⟨b.cursor.bytes - utf8Len xdrop, b.cursor.chars - xdrop.length⟩
      errors := (errorsDrain b.errors (b.cursor.chars - xdrop.length)).1
      deleted_errors :=
        b.deleted_errors ++ (errorsDrain b.errors (b.cursor.chars - xdrop.length)).2 } := by
  obtain ⟨pre0, suf0, hs0, hpre, htl, herr, hsort⟩ := hinv
  have hps : (xkeep ++ xdrop, suf) = (pre0, suf0) := by
    rw [hs0] at hs
    exact (Option.some.inj hs).symm
  rw [Prod.mk.injEq] at hps
  obtain ⟨hp1, hp2⟩ := hps
  subst hp1
  subst hp2
  have htext : b.text = xkeep ++ (xdrop ++ suf) := by
    have := (byteSplit_eq_some _ _ _ _ hs).1
    simpa [List.append_assoc] using this
  have hb : utf8Len xkeep + utf8Len xdrop = b.cursor.bytes := by
    have := (byteSplit_eq_some _ _ _ _ hs).2
    simpa using this
  refine ⟨xkeep, xdrop ++ suf, ?_, ?_, ?_, ?_, ?_⟩
  · show byteSplit b.text (b.cursor.bytes - utf8Len xdrop) = some (xkeep, xdrop ++ suf)
    have h2 : utf8Len xkeep = b.cursor.bytes - utf8Len xdrop := by omega
    rw [htext, ← h2]
    exact byteSplit_append _ _
  · show xkeep.length = b.cursor.chars - xdrop.length
    have h3 : xkeep.length + xdrop.length = b.cursor.chars := by simpa using hpre
    omega
  · show tkeep.length = b.cursor.chars - xdrop.length
    have h4 : tkeep.length + tdrop.length = b.cursor.chars := by
      have h5 := htl
      rw [ht] at h5
      simpa using h5
    omega
  · intro e he
    simp only [errorsDrain_eq] at he
    have := List.mem_takeWhile_imp he
    simpa using this
  · show List.Pairwise _ (errorsDrain b.errors (b.cursor.chars - xdrop.length)).1
    rw [errorsDrain_eq]
    exact List.Pairwise.sublist (List.takeWhile_sublist _) hsort

theorem Backend.pop_total {b : Backend} (hinv : b.Inv) :
    ∃ b', b.pop = some b' ∧ b'.Inv := by
  obtain ⟨pre, suf, hs, hpre, htl, herr, hsort⟩ := hinv
  cases htyp : b.typed.getLast? with
  | none =>
    refine ⟨b, ?_, pre, suf, hs, hpre, htl, herr, hsort⟩
    unfold Backend.pop
    rw [htyp]
  | some tc =>
    obtain ⟨tkeep, ht⟩ := List.getLast?_eq_some_iff.mp htyp
    have hlen1 : 0 < b.cursor.chars := by
      rw [ht] at htl
      simp at htl
      omega
    have hpre_ne : pre ≠ [] := by
      intro hh
      rw [hh] at hpre
      simp at hpre
      omega
    obtain ⟨xkeep, xc, hx⟩ : ∃ l x, pre = l ++ [x] := by
      rcases List.eq_nil_or_concat pre with h | ⟨l, x, h⟩
      · exact absurd h hpre_ne
      · exact ⟨l, x, by simpa [List.concat_eq_append] using h⟩
    subst hx
    have hpop := Backend.pop_eq ht hs hpre
    refine ⟨_, hpop, ?_⟩
    exact Backend.inv_delete ⟨xkeep ++ [xc], suf, hs, hpre, htl, herr, hsort⟩ ht hs
      (by simp)

theorem Backend.dwb_total {b : Backend} (hinv : b.Inv) :
    ∃ b', b.delete_word_backwards = some b' ∧ b'.Inv := by
  obtain ⟨pre, suf, hs, hpre, htl, herr, hsort⟩ := hinv
  obtain ⟨rest, hwt⟩ := takeWhileWordRev_exists_rest b.typed.reverse false
  rw [show takeWhileWordRev b.typed.reverse false = wordTaken b from rfl] at hwt
  have hklen : (wordTaken b).length + rest.length = b.typed.length := by
    have h0 := congrArg List.length hwt
    simp at h0
    omega
  have hk : (wordTaken b).length ≤ pre.length := by omega
  have hdwb := Backend.dwb_eq hs hk
  have ht : b.typed = rest.reverse ++ (wordTaken b).reverse := by
    have h0 := congrArg List.reverse hwt
    rw [List.reverse_reverse, List.reverse_append] at h0
    exact h0
  have hxsplit : pre =
      (pre.reverse.drop (wordTaken b).length).reverse ++
        (pre.reverse.take (wordTaken b).length).reverse := by
    have h0 : (pre.reverse.take (wordTaken b).length ++
        pre.reverse.drop (wordTaken b).length).reverse = pre := by
      rw [List.take_append_drop, List.reverse_reverse]
    conv_lhs => rw [← h0]
    rw [List.reverse_append]
  have hs2 : byteSplit b.text b.cursor.bytes =
      some ((pre.reverse.drop (wordTaken b).length).reverse ++
        (pre.reverse.take (wordTaken b).length).reverse, suf) := by
    rw [← hxsplit]
    exact hs
  have hchars2 : ((pre.reverse.drop (wordTaken b).length).reverse ++
      (pre.reverse.take (wordTaken b).length).reverse).length = b.cursor.chars := by
    rw [← hxsplit]
    exact hpre
  have hkrev : (wordTaken b).length ≤ pre.reverse.length := by simpa using hk
  have hlen2 : ((pre.reverse.take (wordTaken b).length).reverse).length =
      ((wordTaken b).reverse).length := by
    simp
    omega
  have himpl := Backend.delete_backwards_impl_eq b rest.reverse ((wordTaken b).reverse)
    ((pre.reverse.drop (wordTaken b).length).reverse)
    ((pre.reverse.take (wordTaken b).length).reverse) suf ht hs2 hchars2 hlen2
  have hInvR := Backend.inv_delete ⟨pre, suf, hs, hpre, htl, herr, hsort⟩ ht hs2 hlen2
  have e1 : (⟨utf8Len ((pre.reverse.take (wordTaken b).length).reverse),
      ((pre.reverse.take (wordTaken b).length).reverse).length⟩ : Len) =
      ⟨utf8Len (pre.reverse.take (wordTaken b).length), (wordTaken b).length⟩ := by
    simp [Len.mk.injEq]
    omega
  have e2 : (⟨utf8Len ((wordTaken b).reverse), ((wordTaken b).reverse).length⟩ : Len) =
      ⟨utf8Len (wordTaken b), (wordTaken b).length⟩ := by
    simp
  rw [e1, e2] at himpl
  refine ⟨_, ?_, hInvR⟩
  rw [hdwb]
  exact himpl

theorem Backend.inv_clear {b : Backend} (hinv : b.Inv) : b.clear_per_update_data.Inv := by
  obtain ⟨pre, suf, hs, hpre, htl, herr, hsort⟩ := hinv
  exact ⟨pre, suf, hs, hpre, htl, herr, hsort⟩

theorem Backend.reachable_inv {b : Backend} (h : b.Reachable) : b.Inv := by
  induction h with
  | init text => exact Backend.inv_init text
  | push c _ hstep ih => exact Backend.inv_push ih hstep
  | pop _ hstep ih =>
    obtain ⟨b2, hb2, hinv2⟩ := Backend.pop_total ih
    rw [hstep] at hb2
    obtain rfl := Option.some.inj hb2
    exact hinv2
  | backspace_word _ hstep ih =>
    obtain ⟨b2, hb2, hinv2⟩ := Backend.dwb_total ih
    rw [hstep] at hb2
    obtain rfl := Option.some.inj hb2
    exact hinv2
  | end_cycle _ ih => exact Backend.inv_clear ih

theorem Backend.pushSeq_reachable {b b' : Backend} {cs : List Char}
    (hr : b.Reachable) (h : Backend.pushSeq b cs = some b') : b'.Reachable := by
  induction cs generalizing b with
  | nil =>
    obtain rfl := Option.some.inj h
    exact hr
  | cons c cs ih =>
    unfold Backend.pushSeq at h
    cases hp : b.push c with
    | none =>
      simp only [hp] at h
      exact Option.noConfusion h
    | some b2 =>
      simp only [hp] at h
      exact ih (Backend.Reachable.push c hr hp) h

/-- Target text of the concrete BackspaceWord scenario. -/
def hwText : List Char := "hello world again".data

/-- The session after typing the 12 characters of "hello world " against
`hwText`. -/
def bHW : Backend := ⟨hwText, "hello world ".data, ⟨12, 12⟩, ⟨11, 11⟩, [], []⟩

theorem bHW_steps :
    Backend.pushSeq (Backend.init hwText) "hello world ".data = some bHW := by
  decide

theorem bHW_reachable : Backend.Reachable bHW :=
  Backend.pushSeq_reachable (Backend.Reachable.init hwText) bHW_steps

/-- The session after typing "axc" against "abc": one error at position 1. -/
def bErr : Backend := ⟨"abc".data, "axc".data, ⟨3, 3⟩, ⟨2, 2⟩, [⟨1, 1⟩], []⟩

theorem bErr_steps :
    Backend.pushSeq (Backend.init "abc".data) "axc".data = some bErr := by
  decide

theorem bErr_reachable : Backend.Reachable bErr :=
  Backend.pushSeq_reachable (Backend.Reachable.init "abc".data) bErr_steps

/-- `bErr` after BackspaceWord: the error at position 1 moved to
`deleted_errors`. -/
def bErr2 : Backend := ⟨"abc".data, [], ⟨0, 0⟩, ⟨3, 3⟩, [], [⟨1, 1⟩]⟩

/-- The session after typing 'a' against "a". -/
def bA : Backend := ⟨"a".data, ['a'], ⟨1, 1⟩, ⟨0, 0⟩, [], []⟩

theorem bA_reachable : Backend.Reachable bA :=
  Backend.Reachable.push 'a' (Backend.Reachable.init "a".data) (by decide)

/-- `bA` after Backspace: empty typed buffer but `cursor_prev` = ⟨1,1⟩. -/
def bCex : Backend := ⟨"a".data, [], ⟨0, 0⟩, ⟨1, 1⟩, [], []⟩

theorem bCex_reachable : Backend.Reachable bCex :=
  Backend.Reachable.pop bA_reachable (by decide)

theorem takeWhile_all {α : Type} (p : α → Bool) (l : List α) (h : ∀ x ∈ l, p x) :
    l.takeWhile p = l ∧ l.dropWhile p = [] := by
  have h0 := takeWhile_append_all p l [] h
  simpa using h0

/-- C1: for every reachable Backend session state, the number of characters
in `typed` equals `cursor.chars`. -/
theorem typed_count_eq_cursor_chars (b : Backend) (hr : b.Reachable) :
    b.typed.length = b.cursor.chars := by
  obtain ⟨_, _, _, _, htl, _, _⟩ := Backend.reachable_inv hr
  exact htl

theorem typed_count_eq_cursor_chars_witness :
    bHW.typed.length = bHW.cursor.chars :=
  typed_count_eq_cursor_chars bHW bHW_reachable

/-- C10: for every reachable Backend state the cursor addresses a well-formed
prefix of `text`: `cursor.bytes` splits `text` into whole characters, and the
prefix holds exactly `cursor.chars` characters (so `cursor.bytes` is at most
the byte length of `text` and lies on a UTF-8 boundary). -/
theorem cursor_wellformed (b : Backend) (hr : b.Reachable) :
    ∃ pre suf, b.text = pre ++ suf ∧ utf8Len pre = b.cursor.bytes ∧
      pre.length = b.cursor.chars := by
  obtain ⟨pre, suf, hs, hpre, _, _, _⟩ := Backend.reachable_inv hr
  obtain ⟨h1, h2⟩ := byteSplit_eq_some _ _ _ _ hs
  exact ⟨pre, suf, h1, h2, hpre⟩

theorem cursor_wellformed_witness :
    ∃ pre suf, bHW.text = pre ++ suf ∧ utf8Len pre = bHW.cursor.bytes ∧
      pre.length = bHW.cursor.chars :=
  cursor_wellformed bHW bHW_reachable

/-- C3 (amended): on every reachable state all four keystroke operations
complete without failing or panicking (in particular Backspace's lookup of
the preceding text character succeeds whenever `typed` is non-empty);
Advance at end-of-text and Backspace on empty `typed` leave the state
unchanged, and BackspaceWord on empty `typed` leaves every field unchanged
except `cursor_prev`, which it overwrites with the (unchanged) cursor. -/
theorem keystroke_ops_total (b : Backend) (hr : b.Reachable) :
    (∀ c, ∃ b', b.push c = some b') ∧
    (∃ b', b.pop = some b') ∧
    (∃ b', b.delete_word_backwards = some b') ∧
    (b.cursor.bytes = utf8Len b.text → ∀ c, b.push c = some b) ∧
    (b.typed = [] → b.pop = some b) ∧
    (b.typed = [] →
      b.delete_word_backwards = some { b with cursor_prev := b.cursor }) := by
  have hinv := Backend.reachable_inv hr
  obtain ⟨pre, suf, hs, hpre, htl, herr, hsort⟩ := hinv
  refine ⟨?_, ?_, ?_, ?_, ?_, ?_⟩
  · intro c
    cases suf with
    | nil => exact ⟨b, Backend.push_at_end hs c⟩
    | cons goal rest => exact ⟨_, Backend.push_mid hs c⟩
  · obtain ⟨b', h, _⟩ := Backend.pop_total ⟨pre, suf, hs, hpre, htl, herr, hsort⟩
    exact ⟨b', h⟩
  · obtain ⟨b', h, _⟩ := Backend.dwb_total ⟨pre, suf, hs, hpre, htl, herr, hsort⟩
    exact ⟨b', h⟩
  · intro hend c
    obtain ⟨h1, h2⟩ := byteSplit_eq_some _ _ _ _ hs
    have hsuf : suf = [] := by
      apply utf8Len_eq_zero
      have : utf8Len b.text = utf8Len pre + utf8Len suf := by rw [h1]; simp
      omega
    subst hsuf
    exact Backend.push_at_end hs c
  · intro htyped
    unfold Backend.pop
    rw [htyped]
    rfl
  · intro htyped
    have hwt0 : wordTaken b = [] := by
      simp [wordTaken, htyped, takeWhileWordRev]
    have hdwb := Backend.dwb_eq hs (by simp [hwt0])
    have himpl := Backend.delete_backwards_impl_eq b [] [] pre [] suf
      (by simp [htyped]) (by simpa using hs) (by simpa using hpre) rfl
    have hdrain := takeWhile_all (fun e => decide (e.chars < b.cursor.chars)) b.errors
      (fun e he => by simpa using herr e he)
    have hrec : ({ b with
        typed := ([] : List Char)
        cursor_prev := b.cursor
        cursor := ⟨b.cursor.bytes - utf8Len [], b.cursor.chars - List.length ([] : List Char)⟩
        errors := (errorsDrain b.errors (b.cursor.chars - List.length ([] : List Char))).1
        deleted_errors := b.deleted_errors ++
          (errorsDrain b.errors (b.cursor.chars - List.length ([] : List Char))).2 } : Backend) =
        { b with cursor_prev := b.cursor } := by
      simp [errorsDrain_eq, hdrain.1, hdrain.2, htyped]
    rw [hdwb, hwt0]
    exact himpl.trans (congrArg some hrec)

/-- C3 counterexample: `bCex` is reachable (type 'a' against "a", then
Backspace) and has empty `typed`, yet BackspaceWord does not leave the state
unchanged: it resets `cursor_prev` from ⟨1,1⟩ to ⟨0,0⟩. -/
theorem keystroke_ops_total_cex :
    Backend.Reachable bCex ∧ bCex.typed = [] ∧
      Backend.delete_word_backwards bCex ≠ some bCex ∧
      Backend.delete_word_backwards bCex =
        some ⟨"a".data, [], ⟨0, 0⟩, ⟨0, 0⟩, [], []⟩ :=
  ⟨bCex_reachable, rfl, by decide, by decide⟩

theorem keystroke_ops_total_witness : ∃ b', Backend.pop bHW = some b' :=
  (keystroke_ops_total bHW bHW_reachable).2.1

/-- C2 (amended): for every reachable Backend state whose cursor is not at
end-of-text, Advance(c) followed immediately by Backspace restores `cursor`,
`typed` and `errors` exactly, and an error recorded by that Advance is
removed from `errors` and appended to `deleted_errors`. -/
theorem advance_backspace_roundtrip (b b1 b2 : Backend) (c goal : Char)
    (pre rest : List Char) (hr : b.Reachable)
    (hs : byteSplit b.text b.cursor.bytes = some (pre, goal :: rest))
    (h1 : b.push c = some b1) (h2 : b1.pop = some b2) :
    b2.cursor = b.cursor ∧ b2.typed = b.typed ∧ b2.errors = b.errors ∧
    b2.deleted_errors = b.deleted_errors ++
      (if chars_are_equal_including_unicode_alternatives goal c then []
       else [b.cursor]) := by
  obtain ⟨pre0, suf0, hs0, hpre, htl, herr, hsort⟩ := Backend.reachable_inv hr
  have hid : (pre0, suf0) = (pre, goal :: rest) := Option.some.inj (hs0.symm.trans hs)
  have hfst : pre0 = pre := congrArg Prod.fst hid
  have hpre2 : pre.length = b.cursor.chars := hfst ▸ hpre
  rw [Backend.push_mid hs c] at h1
  obtain rfl := Option.some.inj h1
  have hsplit := byteSplit_eq_some _ _ _ _ hs
  have hs1 : byteSplit b.text (b.cursor.bytes + goal.utf8Size) =
      some (pre ++ [goal], rest) := by
    refine byteSplit_some_iff.mpr ⟨?_, ?_⟩
    · simpa [List.append_assoc] using hsplit.1
    · have := hsplit.2
      simp
      omega
  have hchars1 : (pre ++ [goal]).length = b.cursor.chars + 1 := by
    simp [hpre2]
  have hpop := Backend.pop_eq (b := { b with
      typed := b.typed ++ [c]
      errors :=
        if chars_are_equal_including_unicode_alternatives goal c then b.errors
        else b.errors ++ [b.cursor]
      cursor_prev := b.cursor
      cursor := ⟨b.cursor.bytes + goal.utf8Size, b.cursor.chars + 1⟩ })
    rfl hs1 hchars1
  rw [hpop] at h2
  obtain rfl := Option.some.inj h2
  have hdrain : errorsDrain
      (if chars_are_equal_including_unicode_alternatives goal c then b.errors
       else b.errors ++ [b.cursor]) (b.cursor.chars + 1 - 1) =
      (b.errors,
       if chars_are_equal_including_unicode_alternatives goal c then []
       else [b.cursor]) := by
    have hall : ∀ e ∈ b.errors,
        (fun e => decide (e.chars < b.cursor.chars)) e = true :=
      fun e he => by simpa using herr e he
    by_cases hcmp : chars_are_equal_including_unicode_alternatives goal c
    · rw [if_pos hcmp, if_pos hcmp]
      rw [errorsDrain_eq]
      have := takeWhile_all _ b.errors hall
      simp only [Nat.add_sub_cancel]
      rw [this.1, this.2]
    · rw [if_neg hcmp, if_neg hcmp]
      rw [errorsDrain_eq]
      simp only [Nat.add_sub_cancel]
      have happ := takeWhile_append_all
        (fun e => decide (e.chars < b.cursor.chars)) b.errors [b.cursor] hall
      rw [happ.1, happ.2]
      simp [List.takeWhile_cons, List.dropWhile_cons]
  constructor
  · simp
  constructor
  · rfl
  constructor
  · simp only []
    rw [hdrain]
  · simp only []
    rw [hdrain]

/-- C2 counterexample: in the reachable state `bA` the cursor already sits at
end-of-text; Advance('x') is a no-op there, so the following Backspace
deletes the previously typed character instead of restoring the
pre-Advance state. -/
theorem advance_backspace_roundtrip_cex :
    Backend.Reachable bA ∧ Backend.push bA 'x' = some bA ∧
      Backend.pop bA = some bCex ∧ bCex.typed ≠ bA.typed ∧
      bCex.cursor ≠ bA.cursor :=
  ⟨bA_reachable, by decide, by decide, by decide, by decide⟩

theorem advance_backspace_roundtrip_witness :
    ∃ b1 b2, Backend.push (Backend.init "ab".data) 'x' = some b1 ∧
      Backend.pop b1 = some b2 ∧
      b2.cursor = (Backend.init "ab".data).cursor ∧
      b2.typed = (Backend.init "ab".data).typed ∧
      b2.errors = (Backend.init "ab".data).errors ∧
      b2.deleted_errors = (Backend.init "ab".data).deleted_errors ++ [⟨0, 0⟩] := by
  refine ⟨⟨"ab".data, ['x'], ⟨1, 1⟩, ⟨0, 0⟩, [⟨0, 0⟩], []⟩,
    ⟨"ab".data, [], ⟨0, 0⟩, ⟨1, 1⟩, [], [⟨0, 0⟩]⟩, by decide, by decide, ?_⟩
  have h := advance_backspace_roundtrip (Backend.init "ab".data)
    ⟨"ab".data, ['x'], ⟨1, 1⟩, ⟨0, 0⟩, [⟨0, 0⟩], []⟩
    ⟨"ab".data, [], ⟨0, 0⟩, ⟨1, 1⟩, [], [⟨0, 0⟩]⟩ 'x' 'a' [] ['b']
    (Backend.Reachable.init "ab".data) (by decide) (by decide) (by decide)
  obtain ⟨hc, ht, he, hd⟩ := h
  refine ⟨hc, ht, he, ?_⟩
  rw [hd]
  decide

theorem charsEq_spec (e g : Char) :
    (chars_are_equal_including_unicode_alternatives e g = true) ↔
      (e = g ∨
        (g = Char.ofNat 39 ∧ (e = Char.ofNat 0x2018 ∨ e = Char.ofNat 0x2019)) ∨
        (g = Char.ofNat 34 ∧ (e = Char.ofNat 0x201C ∨ e = Char.ofNat 0x201D)) ∨
        (g = Char.ofNat 32 ∧ e = Char.ofNat 0xA0)) := by
  unfold chars_are_equal_including_unicode_alternatives ALTERNATIVES
  by_cases h1 : e = g
  · subst h1
    simp
  · rw [if_neg (by simpa using h1)]
    by_cases h2 : g = Char.ofNat 39
    · subst h2
      simp +decide [List.find?, h1]
    · by_cases h3 : g = Char.ofNat 34
      · subst h3
        simp +decide [List.find?, h1]
      · by_cases h4 : g = Char.ofNat 32
        · subst h4
          simp +decide [List.find?, h1]
        · have e2 : ((Char.ofNat 39, [Char.ofNat 0x2018, Char.ofNat 0x2019]).1 == g) = false := by
            simp
            exact fun hh => h2 hh.symm
          have e3 : ((Char.ofNat 34, [Char.ofNat 0x201C, Char.ofNat 0x201D]).1 == g) = false := by
            simp
            exact fun hh => h3 hh.symm
          have e4 : ((Char.ofNat 32, [Char.ofNat 0xA0]).1 == g) = false := by
            simp
            exact fun hh => h4 hh.symm
          simp [List.find?, e2, e3, e4, h1, h2, h3, h4]

/-- Target text "It’s a test" (curly apostrophe U+2019). -/
def itsTargetText : List Char := "It".data ++ [Char.ofNat 0x2019] ++ "s a test".data

/-- Keystrokes I t ' s space a space t e s t (ASCII apostrophe). -/
def itsTypedKeys : List Char := "It".data ++ [Char.ofNat 39] ++ "s a test".data

/-- C4: with the cursor not at end-of-text, Advance(c) appends the
pre-advance cursor to `errors` exactly when c is not equivalent to the next
target character; equivalence is exact equality, ASCII apostrophe vs curly
single quotes, ASCII double quote vs curly double quotes, or plain space vs
no-break space; and typing "It's a test" against "It’s a test" records no
error. -/
theorem advance_error_iff_mismatch (b : Backend) (c goal : Char)
    (pre rest : List Char)
    (hs : byteSplit b.text b.cursor.bytes = some (pre, goal :: rest)) :
    (∃ b', b.push c = some b' ∧
      b'.errors = b.errors ++
        (if chars_are_equal_including_unicode_alternatives goal c then []
         else [b.cursor])) ∧
    ((chars_are_equal_including_unicode_alternatives goal c = true) ↔
      (goal = c ∨
        (c = Char.ofNat 39 ∧ (goal = Char.ofNat 0x2018 ∨ goal = Char.ofNat 0x2019)) ∨
        (c = Char.ofNat 34 ∧ (goal = Char.ofNat 0x201C ∨ goal = Char.ofNat 0x201D)) ∨
        (c = Char.ofNat 32 ∧ goal = Char.ofNat 0xA0))) ∧
    (Backend.pushSeq (Backend.init itsTargetText) itsTypedKeys).map Backend.errors =
      some [] := by
  refine ⟨⟨_, Backend.push_mid hs c, ?_⟩, charsEq_spec goal c, by decide⟩
  by_cases hcmp : chars_are_equal_including_unicode_alternatives goal c
  · simp [hcmp]
  · simp [hcmp]

theorem advance_error_iff_mismatch_witness :
    ∃ b', (Backend.init itsTargetText).push 'I' = some b' ∧ b'.errors = [] := by
  obtain ⟨⟨b', hb', he⟩, _, _⟩ := advance_error_iff_mismatch
    (Backend.init itsTargetText) 'I' 'I' []
    ("t".data ++ [Char.ofNat 0x2019] ++ "s a test".data) (by decide)
  refine ⟨b', hb', ?_⟩
  rw [he]
  decide

theorem Backend.dwb_spec {b : Backend} (hinv : b.Inv) :
    ∃ b' rest, b.delete_word_backwards = some b' ∧
      b.typed.reverse = wordTaken b ++ rest ∧
      b'.typed = rest.reverse ∧
      b'.cursor.chars = b.cursor.chars - (wordTaken b).length := by
  obtain ⟨pre, suf, hs, hpre, htl, herr, hsort⟩ := hinv
  obtain ⟨rest, hwt⟩ := takeWhileWordRev_exists_rest b.typed.reverse false
  rw [show takeWhileWordRev b.typed.reverse false = wordTaken b from rfl] at hwt
  have hklen : (wordTaken b).length + rest.length = b.typed.length := by
    have h0 := congrArg List.length hwt
    simp at h0
    omega
  have hk : (wordTaken b).length ≤ pre.length := by omega
  have hdwb := Backend.dwb_eq hs hk
  have ht : b.typed = rest.reverse ++ (wordTaken b).reverse := by
    have h0 := congrArg List.reverse hwt
    rw [List.reverse_reverse, List.reverse_append] at h0
    exact h0
  have hxsplit : pre =
      (pre.reverse.drop (wordTaken b).length).reverse ++
        (pre.reverse.take (wordTaken b).length).reverse := by
    have h0 : (pre.reverse.take (wordTaken b).length ++
        pre.reverse.drop (wordTaken b).length).reverse = pre := by
      rw [List.take_append_drop, List.reverse_reverse]
    conv_lhs => rw [← h0]
    rw [List.reverse_append]
  have hs2 : byteSplit b.text b.cursor.bytes =
      some ((pre.reverse.drop (wordTaken b).length).reverse ++
        (pre.reverse.take (wordTaken b).length).reverse, suf) := by
    rw [← hxsplit]
    exact hs
  have hchars2 : ((pre.reverse.drop (wordTaken b).length).reverse ++
      (pre.reverse.take (wordTaken b).length).reverse).length = b.cursor.chars := by
    rw [← hxsplit]
    exact hpre
  have hkrev : (wordTaken b).length ≤ pre.reverse.length := by simpa using hk
  have hlen2 : ((pre.reverse.take (wordTaken b).length).reverse).length =
      ((wordTaken b).reverse).length := by
    simp
    omega
  have himpl := Backend.delete_backwards_impl_eq b rest.reverse ((wordTaken b).reverse)
    ((pre.reverse.drop (wordTaken b).length).reverse)
    ((pre.reverse.take (wordTaken b).length).reverse) suf ht hs2 hchars2 hlen2
  have e1 : (⟨utf8Len ((pre.reverse.take (wordTaken b).length).reverse),
      ((pre.reverse.take (wordTaken b).length).reverse).length⟩ : Len) =
      ⟨utf8Len (pre.reverse.take (wordTaken b).length), (wordTaken b).length⟩ := by
    simp [Len.mk.injEq]
    omega
  have e2 : (⟨utf8Len ((wordTaken b).reverse), ((wordTaken b).reverse).length⟩ : Len) =
      ⟨utf8Len (wordTaken b), (wordTaken b).length⟩ := by
    simp
  rw [e1, e2] at himpl
  refine ⟨{ b with
      typed := rest.reverse
      cursor_prev := b.cursor
      cursor := ⟨b.cursor.bytes - utf8Len ((pre.reverse.take (wordTaken b).length).reverse),
                 b.cursor.chars - ((pre.reverse.take (wordTaken b).length).reverse).length⟩
      errors := (errorsDrain b.errors
        (b.cursor.chars - ((pre.reverse.take (wordTaken b).length).reverse).length)).1
      deleted_errors := b.deleted_errors ++ (errorsDrain b.errors
        (b.cursor.chars - ((pre.reverse.take (wordTaken b).length).reverse).length)).2 },
    rest, ?_, hwt, rfl, ?_⟩
  · rw [hdwb]
    exact himpl
  · show b.cursor.chars - ((pre.reverse.take (wordTaken b).length).reverse).length =
      b.cursor.chars - (wordTaken b).length
    simp
    omega

/-- Character count of the trailing word plus the whitespace after it: the
maximal run of trailing whitespace of `typed` plus the maximal run of
non-whitespace before that run. -/
def trailingWordLen (typed : List Char) : Nat :=
  (typed.reverse.takeWhile rustIsWhitespace).length +
    ((typed.reverse.dropWhile rustIsWhitespace).takeWhile
      (fun c => !rustIsWhitespace c)).length

/-- C5: on a reachable state BackspaceWord removes from the end of `typed`
exactly the maximal run of trailing whitespace plus the maximal run of
non-whitespace before it, and moves the cursor back by that many
characters. -/
theorem backspace_word_removes_word (b b' : Backend) (hr : b.Reachable)
    (h : b.delete_word_backwards = some b') :
    b'.typed = b.typed.take (b.typed.length - trailingWordLen b.typed) ∧
    b'.cursor.chars = b.cursor.chars - trailingWordLen b.typed := by
  have hinv := Backend.reachable_inv hr
  obtain ⟨b2, rest, hd, hwt, hty, hcc⟩ := Backend.dwb_spec hinv
  rw [h] at hd
  obtain rfl := Option.some.inj hd
  have hk : trailingWordLen b.typed = (wordTaken b).length := by
    simp [trailingWordLen, wordTaken, takeWhileWordRev_false]
  have ht : b.typed = rest.reverse ++ (wordTaken b).reverse := by
    have h0 := congrArg List.reverse hwt
    rw [List.reverse_reverse, List.reverse_append] at h0
    exact h0
  have hlen : b.typed.length = rest.length + (wordTaken b).length := by
    have h0 := congrArg List.length hwt
    simp at h0
    omega
  constructor
  · rw [hty, hk, ht]
    have hsub : (rest.reverse ++ (wordTaken b).reverse).length -
        (wordTaken b).length = rest.reverse.length := by
      simp
    rw [hsub, List.take_left]
  · rw [hcc, hk]

/-- `bHW` after BackspaceWord: "world " (6 characters) removed. -/
def bHW2 : Backend := ⟨hwText, "hello ".data, ⟨6, 6⟩, ⟨12, 12⟩, [], []⟩

theorem backspace_word_removes_word_witness :
    Backend.delete_word_backwards bHW = some bHW2 ∧
    bHW2.typed = "hello ".data ∧ trailingWordLen bHW.typed = 6 ∧
    (bHW2.typed = bHW.typed.take (bHW.typed.length - trailingWordLen bHW.typed) ∧
     bHW2.cursor.chars = bHW.cursor.chars - trailingWordLen bHW.typed) :=
  ⟨by decide, by decide, by decide,
    backspace_word_removes_word bHW bHW2 bHW_reachable (by decide)⟩

/-- C6: after Backspace or BackspaceWord on a reachable state, exactly the
error entries at or beyond the new cursor move (in order) to the end of
`deleted_errors`, and the entries strictly before the new cursor remain. -/
theorem backward_move_partitions_errors (b b' : Backend) (hr : b.Reachable)
    (h : b.pop = some b' ∨ b.delete_word_backwards = some b') :
    b'.errors = b.errors.filter (fun e => decide (e.chars < b'.cursor.chars)) ∧
    b'.deleted_errors = b.deleted_errors ++
      b.errors.filter (fun e => decide (b'.cursor.chars ≤ e.chars)) := by
  obtain ⟨pre, suf, hs, hpre, htl, herr, hsort⟩ := Backend.reachable_inv hr
  have hcases : (b.typed = [] ∧ b' = b) ∨
      ∃ lt tp, b.delete_backwards_impl lt tp = some b' := by
    rcases h with h | h
    · exact Backend.pop_cases h
    · exact Or.inr (Backend.dwb_cases h)
  rcases hcases with ⟨htyped, heq⟩ | ⟨lt, tp, himpl⟩
  · rw [heq]
    constructor
    · refine (List.filter_eq_self.mpr ?_).symm
      intro e he
      simpa using herr e he
    · have h0 : b.errors.filter (fun e => decide (b.cursor.chars ≤ e.chars)) = [] := by
        apply List.filter_eq_nil_iff.mpr
        intro e he
        have h1 := herr e he
        simp
        omega
      rw [h0]
      simp
  · obtain ⟨hcur, herr2, hdel2, _, _⟩ := Backend.delete_backwards_impl_shape himpl
    have hcc : b'.cursor.chars = b.cursor.chars - lt.chars := by rw [hcur]
    have hfil := sorted_takeWhile_dropWhile_filter b.errors
      (b.cursor.chars - lt.chars) hsort
    constructor
    · rw [herr2, errorsDrain_eq, hcc, hfil.1]
    · rw [hdel2, errorsDrain_eq, hcc, hfil.2]

theorem backward_move_partitions_errors_witness :
    bErr2.errors = bErr.errors.filter (fun e => decide (e.chars < bErr2.cursor.chars)) ∧
    bErr2.deleted_errors = bErr.deleted_errors ++
      bErr.errors.filter (fun e => decide (bErr2.cursor.chars ≤ e.chars)) :=
  backward_move_partitions_errors bErr bErr2 bErr_reachable (Or.inr (by decide))

/-- ASCII lowercasing of a path string (Rust's `str::to_lowercase`; the two
agree on the ASCII range that package paths use). -/
def lowerStr (s : String) : String :=
  ⟨s.data.map Char.toLower⟩

/-- Drop the fragment after the last `#` of an href, as
`content.rsplit_once(char 35)` does in Toc::parse_v2 (epub.rs lines 295-298);
without a `#` the whole string is the path. -/
def stripFragment (s : String) : String :=
  if s.data.contains (Char.ofNat 35) then
    ⟨((s.data.reverse.dropWhile (fun c => !(c == Char.ofNat 35))).drop 1).reverse⟩
  else s

/-- Toc::parse_v2 navpoint src resolution (epub.rs lines 295-304): strip the
fragment, lowercase, look the path up among the manifest item paths
case-insensitively, then map the manifest index to a spine position;
`unwrap_or(0)` turns either lookup failure into spine index 0. -/
def resolveV2Src (manifest : List String) (spine : List Nat) (src : String) : Nat :=
  match manifest.findIdx? (fun p => lowerStr p == lowerStr (stripFragment src)) with
  | none => 0
  | some idx =>
    match spine.findIdx? (fun i => i == idx) with
    | none => 0
    | some sidx => sidx

/-- Toc::parse_v3 entry resolution (epub.rs lines 211-227): the entry's href,
joined against the navigation document's URI, must equal a manifest item's
resolved path, and the item must appear in the spine; either lookup failure
is a parse error (`context(...)?`). The `epub:/` URL join is modelled by
comparing the already-joined path against the manifest paths. -/
def resolveV3Href (manifest : List String) (spine : List Nat)
    (hrefPath : String) : Except String Nat :=
  match manifest.findIdx? (fun p => p == hrefPath) with
  | none => Except.error "toc reference missing in manifest"
  | some m =>
    match spine.findIdx? (fun i => i == m) with
    | none => Except.error "toc reference missing in spine"
    | some s => Except.ok s

/-- The spine indices of the entries a v2 nav map yields, in document order
(resolution never fails). -/
def parse_v2_entries (manifest : List String) (spine : List Nat)
    (srcs : List String) : List Nat :=
  srcs.map (resolveV2Src manifest spine)

/-- The spine indices a v3 toc list yields; the first resolution failure
aborts the whole parse, as the `?` in visit_entries propagates it. -/
def parse_v3_entries (manifest : List String) (spine : List Nat) :
    List String → Except String (List Nat)
  | [] => Except.ok []
  | h :: t =>
    match resolveV3Href manifest spine h with
    | Except.error e => Except.error e
    | Except.ok i =>
      match parse_v3_entries manifest spine t with
      | Except.error e => Except.error e
      | Except.ok rest => Except.ok (i :: rest)

theorem parse_v3_error_of_mem (manifest : List String) (spine : List Nat)
    (x : String)
    (hx : ∃ e, resolveV3Href manifest spine x = Except.error e) :
    ∀ l1 l2, ∃ e,
      parse_v3_entries manifest spine (l1 ++ x :: l2) = Except.error e := by
  intro l1
  induction l1 with
  | nil =>
    intro l2
    obtain ⟨e, he⟩ := hx
    exact ⟨e, by simp [parse_v3_entries, he]⟩
  | cons y l1 ih =>
    intro l2
    cases hy : resolveV3Href manifest spine y with
    | error e => exact ⟨e, by simp [parse_v3_entries, hy]⟩
    | ok v =>
      obtain ⟨e, he⟩ := ih l2
      exact ⟨e, by simp [parse_v3_entries, hy, he]⟩

/-- C7: an EPUB2 NCX entry whose src resolves to no manifest item, or to an
item absent from the spine, yields spine index 0 without failing the parse
(resolution is total and the surrounding entries are unaffected); the
analogous dangling EPUB3 entry fails the whole parse with an error. -/
theorem toc_dangling_reference (manifest : List String) (spine : List Nat)
    (src hrefPath : String) :
    ((manifest.findIdx? (fun p => lowerStr p == lowerStr (stripFragment src)) = none ∨
      (∃ m, manifest.findIdx? (fun p => lowerStr p == lowerStr (stripFragment src)) =
          some m ∧ spine.findIdx? (fun i => i == m) = none)) →
      resolveV2Src manifest spine src = 0) ∧
    ((manifest.findIdx? (fun p => p == hrefPath) = none ∨
      (∃ m, manifest.findIdx? (fun p => p == hrefPath) = some m ∧
        spine.findIdx? (fun i => i == m) = none)) →
      (∃ e, resolveV3Href manifest spine hrefPath = Except.error e) ∧
      ∀ pres posts, ∃ e,
        parse_v3_entries manifest spine (pres ++ hrefPath :: posts) =
          Except.error e) ∧
    (∀ srcs1 srcs2, parse_v2_entries manifest spine (srcs1 ++ src :: srcs2) =
      parse_v2_entries manifest spine srcs1 ++
        resolveV2Src manifest spine src :: parse_v2_entries manifest spine srcs2) := by
  refine ⟨?_, ?_, ?_⟩
  · intro h
    unfold resolveV2Src
    rcases h with h | ⟨m, hm, hsp⟩
    · simp only [h]
    · simp only [hm, hsp]
  · intro h
    have hv3 : ∃ e, resolveV3Href manifest spine hrefPath = Except.error e := by
      unfold resolveV3Href
      rcases h with h | ⟨m, hm, hsp⟩
      · simp only [h]
        exact ⟨_, rfl⟩
      · simp only [hm, hsp]
        exact ⟨_, rfl⟩
    refine ⟨hv3, ?_⟩
    intro pres posts
    exact parse_v3_error_of_mem manifest spine hrefPath hv3 pres posts
  · intro srcs1 srcs2
    unfold parse_v2_entries
    simp

theorem toc_dangling_reference_witness :
    resolveV2Src ["ch1.html"] [0] "missing.html" = 0 ∧
    (∃ e, resolveV3Href ["ch1.html"] [0] "missing.html" = Except.error e) := by
  have h := toc_dangling_reference ["ch1.html"] [0] "missing.html" "missing.html"
  exact ⟨h.1 (Or.inl (by decide)), (h.2.1 (Or.inl (by decide))).1⟩

/-- The package inputs of the two-phase open, with the zip/XML layer already
decoded: each field is what the parser reads at the corresponding step,
`none` when the element or attribute is absent. The spine and toc sub-parses
are abstracted (present-or-absent, and the toc results as data); their inner
failures are not needed for the open-rejection properties. -/
structure PackageSrc where
  rootfilePath : Option String
  versionAttr : Option (List Nat)
  identifier : Option String
  title : Option String
  language : Option String
  manifestItems : Option (List String)
  spineIdrefs : Option (List Nat)
  ncxIdx : Option Nat
  tocIdx : Option Nat
  tocV2 : Except String (List Nat)
  tocV3 : Except String (List Nat)

structure EpubMetadata where
  identifier : String
  title : String
  language : String

/-- Metadata::parse requirements (epub.rs lines 400-405): identifier, title
and language must each be present (creators are optional and omitted). -/
def EpubMetadata.parse (i t l : Option String) : Except String EpubMetadata :=
  match i with
  | none => Except.error "missing identifier"
  | some i =>
    match t with
    | none => Except.error "missing title"
    | some t =>
      match l with
      | none => Except.error "missing language"
      | some l => Except.ok ⟨i, t, l⟩

structure EpubPreviewState where
  version : Nat
  metadata : EpubMetadata

/-- EpubPreview::from_file (epub.rs lines 418-477): requires the root-file
pointer and the version attribute; the major version is the first byte of
the version string minus the byte value of the digit zero (48), `u8`
wrapping arithmetic modelled by `% 256`; an empty attribute value would
panic in Rust (index out of bounds), modelled as a distinguished error; then
`ensure!(version > 1)` and the metadata requirements. -/
def EpubPreview.from_file (p : PackageSrc) : Except String EpubPreviewState :=
  match p.rootfilePath with
  | none => Except.error "missing rootfile"
  | some _ =>
    match p.versionAttr with
    | none => Except.error "rootfile missing version"
    | some [] => Except.error "panic: version attribute empty"
    | some (b :: _) =>
      if (b + 256 - 48) % 256 > 1 then
        match EpubMetadata.parse p.identifier p.title p.language with
        | Except.error e => Except.error e
        | Except.ok m => Except.ok ⟨(b + 256 - 48) % 256, m⟩
      else Except.error "unsupported epub version"

/-- EpubPreview::full (epub.rs lines 479-527): manifest, then spine, then
the dispatch on the declared version; versions other than 2 and 3 bail, and
versions 2/3 need their navigation-document index. Returns the toc's spine
indices. -/
def EpubPreview.full (p : PackageSrc) (pv : EpubPreviewState) :
    Except String (List Nat) :=
  match p.manifestItems with
  | none => Except.error "rootfile missing manifest"
  | some _ =>
    match p.spineIdrefs with
    | none => Except.error "rootfile missing spine"
    | some _ =>
      match pv.version with
      | 2 =>
        match p.ncxIdx with
        | none => Except.error "missing ncx idx"
        | some _ => p.tocV2
      | 3 =>
        match p.tocIdx with
        | none => Except.error "missing toc idx"
        | some _ => p.tocV3
      | _ => Except.error "unsupported epub version (supported versions are 2, 3)"

/-- Epub::from_path (epub.rs lines 41-43): preview, then full parse. -/
def Epub.from_path (p : PackageSrc) : Except String (List Nat) :=
  match EpubPreview.from_file p with
  | Except.error e => Except.error e
  | Except.ok pv => EpubPreview.full p pv

def exceptIsError {α : Type} : Except String α → Bool
  | Except.error _ => true
  | Except.ok _ => false

/-- C8: the two-phase open fails with an error whenever the declared major
version — the first digit of the version string — is neither 2 nor 3, and
whenever the version attribute, a required metadata field (identifier,
title, language) or the root-file pointer is absent. -/
theorem open_rejects_bad_package (p : PackageSrc) :
    (p.rootfilePath = none → exceptIsError (Epub.from_path p) = true) ∧
    (p.versionAttr = none → exceptIsError (Epub.from_path p) = true) ∧
    (p.identifier = none → exceptIsError (Epub.from_path p) = true) ∧
    (p.title = none → exceptIsError (Epub.from_path p) = true) ∧
    (p.language = none → exceptIsError (Epub.from_path p) = true) ∧
    (∀ b rest, p.versionAttr = some (b :: rest) → 48 ≤ b → b < 256 →
      b - 48 ≠ 2 → b - 48 ≠ 3 →
      exceptIsError (Epub.from_path p) = true) := by
  have hmeta : ∀ h : p.identifier = none ∨ p.title = none ∨ p.language = none,
      exceptIsError (Epub.from_path p) = true := by
    intro h
    have hm : ∃ e, EpubMetadata.parse p.identifier p.title p.language =
        Except.error e := by
      unfold EpubMetadata.parse
      rcases h with h | h | h
      · simp only [h]
        exact ⟨_, rfl⟩
      · cases p.identifier <;> simp only [h] <;> exact ⟨_, rfl⟩
      · cases p.identifier <;> cases p.title <;> simp only [h] <;> exact ⟨_, rfl⟩
    obtain ⟨e, he⟩ := hm
    unfold Epub.from_path EpubPreview.from_file
    cases p.rootfilePath with
    | none => rfl
    | some rf =>
      cases p.versionAttr with
      | none => rfl
      | some l =>
        cases l with
        | nil => rfl
        | cons b rest =>
          simp only [he]
          by_cases hgt : (b + 256 - 48) % 256 > 1
          · rw [if_pos hgt]
            rfl
          · rw [if_neg hgt]
            rfl
  refine ⟨?_, ?_, fun h => hmeta (Or.inl h), fun h => hmeta (Or.inr (Or.inl h)),
    fun h => hmeta (Or.inr (Or.inr h)), ?_⟩
  · intro h
    unfold Epub.from_path EpubPreview.from_file
    simp only [h]
    rfl
  · intro h
    unfold Epub.from_path EpubPreview.from_file
    cases p.rootfilePath with
    | none => rfl
    | some rf =>
      simp only [h]
      rfl
  · intro b rest hv h48 h256 h2 h3
    unfold Epub.from_path EpubPreview.from_file
    cases hr : p.rootfilePath with
    | none => rfl
    | some rf =>
      simp only [hv]
      have hvers : (b + 256 - 48) % 256 = b - 48 := by omega
      rw [hvers]
      by_cases hgt : b - 48 > 1
      · rw [if_pos hgt]
        cases hm : EpubMetadata.parse p.identifier p.title p.language with
        | error e => rfl
        | ok m =>
          simp only []
          unfold EpubPreview.full
          cases p.manifestItems with
          | none => rfl
          | some _ =>
            cases p.spineIdrefs with
            | none => rfl
            | some _ =>
              obtain ⟨w, hw⟩ : ∃ w, b - 48 = w + 4 := ⟨b - 48 - 4, by omega⟩
              simp only [hw]
              rfl
      · rw [if_neg hgt]
        rfl

/-- A structurally complete package that declares version "4.0". -/
def p4 : PackageSrc :=
  ⟨some "OEBPS/content.opf", some [52], some "id", some "t", some "en",
    some ["ch1.html"], some [0], some 0, some 0, Except.ok [0], Except.ok [0]⟩

theorem open_rejects_bad_package_witness :
    exceptIsError (Epub.from_path p4) = true :=
  (open_rejects_bad_package p4).2.2.2.2.2 52 [] rfl (by decide) (by decide)
    (by decide) (by decide)

/-- The outcome of an XML parse attempt, abstracted to what Epub::traverse's
error handling inspects. -/
inductive XmlParseResult where
  | ok : XmlParseResult
  | unknownEntity (name : String) : XmlParseResult
  | otherError (msg : String) : XmlParseResult
deriving DecidableEq

/-- A computation that either produces a value or aborts the process. -/
inductive PanicOr (α : Type) where
  | crash (msg : String) : PanicOr α
  | ok (a : α) : PanicOr α
deriving DecidableEq

/-- The XML-parse error handling of Epub::traverse (epub.rs lines 624-636):
`first` is the parse result of the raw chapter data, `retry` the result of
reparsing after substituting a space for every `&nbsp;`. Only the nbsp case
is recovered, and only once; a failing retry hits `.unwrap()`, an unknown
entity other than nbsp hits an argumentless `panic!`, and every other parse
error e hits a `panic!` printing e — none of these paths returns an error
value to the caller even though traverse returns `anyhow::Result`. -/
def traverse_parse (first retry : XmlParseResult) : PanicOr Unit :=
  match first with
  | XmlParseResult.ok => PanicOr.ok ()
  | XmlParseResult.unknownEntity name =>
    if name = "nbsp" then
      match retry with
      | XmlParseResult.ok => PanicOr.ok ()
      | _ => PanicOr.crash "unwrap on retry failure"
    else PanicOr.crash "explicit panic"
  | XmlParseResult.otherError e => PanicOr.crash e

/-- C9 (evaluating the code): the only recovered chapter-parse failure is an
unknown `&nbsp;` entity, retried exactly once after substitution; but a
failure of that retry, an unknown entity other than nbsp, and any other
parse failure all abort by panicking instead of being surfaced to the caller
as a typed error. -/
theorem traverse_parse_panics :
    traverse_parse (XmlParseResult.unknownEntity "nbsp") XmlParseResult.ok =
      PanicOr.ok () ∧
    traverse_parse (XmlParseResult.unknownEntity "nbsp")
        (XmlParseResult.otherError "bad xml") =
      PanicOr.crash "unwrap on retry failure" ∧
    traverse_parse (XmlParseResult.unknownEntity "amp") XmlParseResult.ok =
      PanicOr.crash "explicit panic" ∧
    traverse_parse (XmlParseResult.otherError "syntax error") XmlParseResult.ok =
      PanicOr.crash "syntax error" ∧
    (∀ first retry, (∃ msg, traverse_parse first retry = PanicOr.crash msg) →
      first ≠ XmlParseResult.ok) := by
  refine ⟨by decide, by decide, by decide, rfl, ?_⟩
  intro first retry h hfirst
  subst hfirst
  obtain ⟨msg, hm⟩ := h
  exact PanicOr.noConfusion hm
